import Mathlib

/-!
# stringlist: a comma-separated, repeatable string-list flag

A shallow embedding of `stringlist.go` (`Value.Set`, `Value.String`, `Slice.Set`,
`Slice.String`, `SliceRef`) together with the parts of the Go standard library
that the package calls (`strings.Split`, `strings.TrimSpace`, `strings.Join`,
`unicode.IsSpace`, `utf8.DecodeRuneInString`, `utf8.DecodeLastRuneInString`).

A Go string is an immutable sequence of bytes; it need not be valid UTF-8.
Strings are therefore lists of bytes, each byte a natural number below 256.
A rune (a Unicode code point) is a natural number as well: decoding never
yields a negative one.
Indices that Go reports as `-1` for "not found" are `Option Nat` with `none`.
-/

namespace Stringlist

/-- A Go `string`: a sequence of bytes. -/
abbrev Str := List Nat

/-- The bytes of an ASCII literal, used to write test inputs legibly. -/
def ascii (s : String) : Str := s.toList.map Char.toNat

/-- The indexing expression `s[i]`. Go panics when `i` is out of range; every
use below is within bounds, as it is in the Go code. -/
def byteAt (s : Str) (i : Nat) : Nat := s.getD i 0

/-! ## unicode/utf8 -/

/-- `utf8.RuneError`, the replacement character U+FFFD. -/
def RuneError : Nat := 0xFFFD

/-- `utf8.RuneSelf`: bytes below it are single-byte runes. -/
def RuneSelf : Nat := 0x80

/-- `utf8.UTFMax`: the longest encoding of a rune, in bytes. -/
def UTFMax : Nat := 4

/-- `utf8.first`: information about the first byte of an encoding. The low three
bits are the length of the encoding, the high four bits index `acceptRanges`;
`0xF0` marks an ASCII byte and `0xF1` an invalid first byte. -/
def first (b : Nat) : Nat :=
  if b < 0x80 then 0xF0        -- as
  else if b < 0xC2 then 0xF1   -- xx
  else if b < 0xE0 then 0x02   -- s1
  else if b = 0xE0 then 0x13   -- s2
  else if b < 0xED then 0x03   -- s3
  else if b = 0xED then 0x23   -- s4
  else if b < 0xF0 then 0x03   -- s3
  else if b = 0xF0 then 0x34   -- s5
  else if b < 0xF4 then 0x04   -- s6
  else if b = 0xF4 then 0x44   -- s7
  else 0xF1                    -- xx

/-- `utf8.acceptRanges`: the bounds `(lo, hi)` on the second byte of an encoding. -/
def acceptRanges (i : Nat) : Nat × Nat :=
  match i with
  | 0 => (0x80, 0xBF)
  | 1 => (0xA0, 0xBF)
  | 2 => (0x80, 0x9F)
  | 3 => (0x90, 0xBF)
  | 4 => (0x80, 0x8F)
  | _ => (0, 0)

/-- `utf8.DecodeRuneInString`: the first rune of `s` and its width in bytes;
`(RuneError, 0)` for the empty string and `(RuneError, 1)` for an invalid
encoding. The masks `s0 & 0x1F` etc. are remainders and the shifted fields,
which do not overlap, are added. -/
def DecodeRuneInString (s : Str) : Nat × Nat :=
  let n := s.length
  if n < 1 then (RuneError, 0) else
  let s0 := byteAt s 0
  let x := first s0
  if x ≥ 0xF0 then
    -- `mask` is all ones exactly when `x` is odd, that is `x = xx`
    (if x % 2 = 1 then RuneError else s0, 1)
  else
  let sz := x % 8
  let accept := acceptRanges (x / 16)
  if n < sz then (RuneError, 1) else
  let s1 := byteAt s 1
  if s1 < accept.1 ∨ accept.2 < s1 then (RuneError, 1) else
  if sz ≤ 2 then ((s0 % 32) * 64 + s1 % 64, 2) else
  let s2 := byteAt s 2
  if s2 < 0x80 ∨ 0xBF < s2 then (RuneError, 1) else
  if sz ≤ 3 then ((s0 % 16) * 4096 + (s1 % 64) * 64 + s2 % 64, 3) else
  let s3 := byteAt s 3
  if s3 < 0x80 ∨ 0xBF < s3 then (RuneError, 1) else
  ((s0 % 8) * 262144 + (s1 % 64) * 4096 + (s2 % 64) * 64 + s3 % 64, 4)

/-- `utf8.RuneStart`: whether `b` could be the first byte of an encoded rune. -/
def RuneStart (b : Nat) : Bool := b / 64 % 4 != 2

/-- The backwards scan of `utf8.DecodeLastRuneInString`,
`for start--; start >= lim; start-- { if RuneStart(s[start]) { break } }`,
entered after the initial `start--`; it returns the final `start`, which is
negative when the scan runs off the front of the string. -/
def scanRuneStart (s : Str) (lim : Int) : Nat → Int → Int
  | 0, start => start
  | fuel + 1, start =>
    if start ≥ lim then
      if RuneStart (byteAt s start.toNat) then start
      else scanRuneStart s lim fuel (start - 1)
    else start

/-- `utf8.DecodeLastRuneInString`: the last rune of `s` and its width in bytes;
`(RuneError, 0)` for the empty string and `(RuneError, 1)` for an invalid
encoding. The scan looks at no more than `UTFMax` bytes. -/
def DecodeLastRuneInString (s : Str) : Nat × Nat :=
  let stop := s.length
  if stop = 0 then (RuneError, 0) else
  let start := stop - 1
  let r := byteAt s start
  if r < RuneSelf then (r, 1) else
  let lim : Int := if (stop : Int) - UTFMax < 0 then 0 else (stop : Int) - UTFMax
  let start := scanRuneStart s lim UTFMax ((start : Int) - 1)
  let start := if start < 0 then 0 else start.toNat
  let (r, size) := DecodeRuneInString ((s.take stop).drop start)
  if start + size ≠ stop then (RuneError, 1) else (r, size)

/-! ## unicode -/

/-- The ranges of `unicode.White_Space`, as `(lo, hi)` pairs with stride one. -/
def White_Space : List (Nat × Nat) :=
  [(0x0009, 0x000d), (0x0020, 0x0020), (0x0085, 0x0085), (0x00a0, 0x00a0),
   (0x1680, 0x1680), (0x2000, 0x200a), (0x2028, 0x2029), (0x202f, 0x202f),
   (0x205f, 0x205f), (0x3000, 0x3000)]

/-- `unicode.IsSpace`: Latin-1 runes are decided by a switch, all others by the
`White_Space` table with its four Latin-1 ranges skipped. -/
def IsSpace (r : Nat) : Bool :=
  if r ≤ 0xFF then
    r = 0x09 ∨ r = 0x0A ∨ r = 0x0B ∨ r = 0x0C ∨ r = 0x0D ∨ r = 0x20 ∨ r = 0x85 ∨ r = 0xA0
  else
    (White_Space.drop 4).any (fun rg => rg.1 ≤ r ∧ r ≤ rg.2)

/-! ## strings -/

/-- `strings.asciiSpace`: the table marking `\t`, `\n`, `\v`, `\f`, `\r` and space. -/
def asciiSpace (c : Nat) : Nat :=
  if c = 0x09 ∨ c = 0x0A ∨ c = 0x0B ∨ c = 0x0C ∨ c = 0x0D ∨ c = 0x20 then 1 else 0

/-- The loop of `strings.indexFunc`, `for i, r := range s`: at byte index `i`
the rune `r` is decoded from `s[i:]` and the next index is `i` plus its width. -/
def indexFuncLoop (s : Str) (f : Nat → Bool) (truth : Bool) : Nat → Nat → Option Nat
  | 0, _ => none
  | fuel + 1, i =>
    if i < s.length then
      let (r, w) := DecodeRuneInString (s.drop i)
      if f r = truth then some i
      else indexFuncLoop s f truth fuel (i + w)
    else none

/-- `strings.indexFunc`: the index of the first rune `r` with `f r = truth`, or
`none` (Go: `-1`). Every iteration advances by at least one byte, so
`len(s)` iterations exhaust the string. -/
def indexFunc (s : Str) (f : Nat → Bool) (truth : Bool) : Option Nat :=
  indexFuncLoop s f truth s.length 0

/-- The loop of `strings.lastIndexFunc`:
`for i := len(s); i > 0; { r, size := DecodeLastRuneInString(s[0:i]); i -= size; ... }`. -/
def lastIndexFuncLoop (s : Str) (f : Nat → Bool) (truth : Bool) : Nat → Nat → Option Nat
  | 0, _ => none
  | fuel + 1, i =>
    if i > 0 then
      let (r, size) := DecodeLastRuneInString (s.take i)
      let i := i - size
      if f r = truth then some i
      else lastIndexFuncLoop s f truth fuel i
    else none

/-- `strings.lastIndexFunc`: the index of the last rune `r` with `f r = truth`,
or `none` (Go: `-1`). -/
def lastIndexFunc (s : Str) (f : Nat → Bool) (truth : Bool) : Option Nat :=
  lastIndexFuncLoop s f truth s.length s.length

/-- `strings.TrimLeftFunc`. -/
def TrimLeftFunc (s : Str) (f : Nat → Bool) : Str :=
  match indexFunc s f false with
  | none => []
  | some i => s.drop i

/-- `strings.TrimRightFunc`: after finding the last rune that is kept, its
width is decoded again, forwards, to find where the result ends. -/
def TrimRightFunc (s : Str) (f : Nat → Bool) : Str :=
  match lastIndexFunc s f false with
  | none => s.take 0                          -- `i = -1`, then `i++`
  | some i =>
    if byteAt s i ≥ RuneSelf then
      let wid := (DecodeRuneInString (s.drop i)).2
      s.take (i + wid)
    else
      s.take (i + 1)

/-- `strings.TrimFunc`. -/
def TrimFunc (s : Str) (f : Nat → Bool) : Str :=
  TrimRightFunc (TrimLeftFunc s f) f

/-- The first loop of `strings.TrimSpace`, over the leading ASCII bytes: `.inl`
is an early `return`, `.inr` the value of `start` when the loop is left. -/
def trimSpaceStart (s : Str) : Nat → Nat → Str ⊕ Nat
  | 0, start => .inr start
  | fuel + 1, start =>
    if start < s.length then
      let c := byteAt s start
      if c ≥ RuneSelf then .inl (TrimFunc (s.drop start) IsSpace)
      else if asciiSpace c = 0 then .inr start
      else trimSpaceStart s fuel (start + 1)
    else .inr start

/-- The second loop of `strings.TrimSpace`, over the trailing ASCII bytes:
`.inl` is an early `return`, `.inr` the value of `stop` when the loop is left. -/
def trimSpaceStop (s : Str) (start : Nat) : Nat → Nat → Str ⊕ Nat
  | 0, stop => .inr stop
  | fuel + 1, stop =>
    if stop > start then
      let c := byteAt s (stop - 1)
      if c ≥ RuneSelf then .inl (TrimRightFunc ((s.take stop).drop start) IsSpace)
      else if asciiSpace c = 0 then .inr stop
      else trimSpaceStop s start fuel (stop - 1)
    else .inr stop

/-- `strings.TrimSpace`: `s` without its leading and trailing white space, as
defined by Unicode. -/
def TrimSpace (s : Str) : Str :=
  match trimSpaceStart s s.length 0 with
  | .inl r => r
  | .inr start =>
    match trimSpaceStop s start s.length s.length with
    | .inl r => r
    | .inr stop => (s.take stop).drop start

/-- `strings.IndexByte`: the index of the first byte `c` in `s`, or `none`
(Go: `-1`). -/
def IndexByte (s : Str) (c : Nat) : Option Nat :=
  match s with
  | [] => none
  | b :: rest => if b = c then some 0 else (IndexByte rest c).map (· + 1)

/-- `strings.Count` for a one-byte separator: the number of bytes `c` in `s`. -/
def Count (s : Str) (c : Nat) : Nat :=
  match s with
  | [] => 0
  | b :: rest => (if b = c then 1 else 0) + Count rest c

/-- The loop of `strings.genSplit` for a one-byte separator and `sepSave = 0`:
`for i < n { m := Index(s, sep); if m < 0 { break }; a[i] = s[:m]; s = s[m+1:]; i++ }`
followed by `a[i] = s; return a[:i+1]`. The first argument is `n - i` and `a`
holds `a[:i]`. -/
def genSplitLoop (sep : Nat) : Nat → Str → List Str → List Str
  | 0, s, a => a ++ [s]
  | k + 1, s, a =>
    match IndexByte s sep with
    | none => a ++ [s]
    | some m => genSplitLoop sep k (s.drop (m + 1)) (a ++ [s.take m])

/-- `strings.Split(s, sep)` for a one-byte separator `sep`, which is how
`Value.Set` calls it: `genSplit(s, sep, 0, -1)`. -/
def Split (s : Str) (sep : Nat) : List Str :=
  let n := Count s sep + 1
  let n := if n > s.length + 1 then s.length + 1 else n
  genSplitLoop sep (n - 1) s []

/-- The loop of `strings.Join` that writes the separator and each further
element into the builder `b`. -/
def joinLoop (sep : Str) : List Str → Str → Str
  | [], b => b
  | s :: rest, b => joinLoop sep rest (b ++ sep ++ s)

/-- `strings.Join`: the elements of `elems` with `sep` between them. -/
def Join (elems : List Str) (sep : Str) : Str :=
  match elems with
  | [] => []
  | [e] => e
  | e :: rest => joinLoop sep rest e

/-! ## package stringlist -/

/-- The byte `,`. -/
def comma : Nat := 0x2C

/-- Go's `error` as returned by `Set`: `none` is `nil`. -/
abbrev Error := Option String

/-- `type Value []string`. -/
abbrev Value := List Str

/-- The loop of `Value.Set`: `for _, t := range tokens { *v = append(*v, strings.TrimSpace(t)) }`. -/
def Value.setLoop : List Str → Value → Value
  | [], v => v
  | t :: tokens, v => Value.setLoop tokens (v ++ [TrimSpace t])

/-- `func (v *Value) Set(args string) error`: the new value of `*v` and the
returned error. -/
def Value.Set (v : Value) (args : Str) : Value × Error :=
  let tokens := Split args comma
  let v := Value.setLoop tokens v
  (v, none)

/-- `func (v *Value) String() string`. -/
def Value.String (v : Value) : Str :=
  Join v [comma]

/-- `type Slice struct{ slice *[]string }`: the state is the sequence that the
pointer refers to. -/
structure Slice where
  /-- The referenced `[]string`, `*r.slice`. -/
  slice : List Str
deriving DecidableEq

/-- `func SliceRef(s *[]string) Slice`. -/
def SliceRef (s : List Str) : Slice := { slice := s }

/-- `func (r Slice) Set(args string) error`: the new value of `*r.slice` and the
returned error. -/
def Slice.Set (r : Slice) (args : Str) : Slice × Error :=
  let v : Value := r.slice
  match Value.Set v args with
  | (_, some err) => (r, some err)
  | (v, none) => ({ slice := v }, none)

/-- `func (r Slice) String() string`. -/
def Slice.String (r : Slice) : Str :=
  let v : Value := r.slice
  Value.String v

/-- The call `v.String()` as a step on the state: the value of `*v` after the
call and the returned string. The method has a pointer receiver, and its
body `return strings.Join(*v, ",")` assigns nothing. -/
def Value.stringCall (v : Value) : Value × Str :=
  (v, Join v [comma])

/-- The call `r.String()` as a step on the state: the value of `*r.slice` after
the call and the returned string. The body copies `*r.slice` into the local
`v`, calls `v.String()` and, unlike `Slice.Set`, does not assign `*r.slice`. -/
def Slice.stringCall (r : Slice) : Slice × Str :=
  let v : Value := r.slice
  let (_, s) := Value.stringCall v
  (r, s)

/-- The state after calling `Set` once for each string of `args`, in order. -/
def Value.setAll (v : Value) (args : List Str) : Value :=
  args.foldl (fun v s => (Value.Set v s).1) v

/-! ## Vocabulary of the specification and of the proofs -/

/-- A byte that is not a UTF-8 continuation byte. -/
def nonCont (b : Nat) : Prop := b < 0x80 ∨ 0xC0 ≤ b

/-- The body of `DecodeRuneInString` once `x = first s[0]` is known. -/
def decodeWith (x : Nat) (s : Str) : Nat × Nat :=
  let s0 := byteAt s 0
  if x ≥ 0xF0 then
    (if x % 2 = 1 then RuneError else s0, 1)
  else
  let sz := x % 8
  let accept := acceptRanges (x / 16)
  if s.length < sz then (RuneError, 1) else
  let s1 := byteAt s 1
  if s1 < accept.1 ∨ accept.2 < s1 then (RuneError, 1) else
  if sz ≤ 2 then ((s0 % 32) * 64 + s1 % 64, 2) else
  let s2 := byteAt s 2
  if s2 < 0x80 ∨ 0xBF < s2 then (RuneError, 1) else
  if sz ≤ 3 then ((s0 % 16) * 4096 + (s1 % 64) * 64 + s2 % 64, 3) else
  let s3 := byteAt s 3
  if s3 < 0x80 ∨ 0xBF < s3 then (RuneError, 1) else
  ((s0 % 8) * 262144 + (s1 % 64) * 4096 + (s2 % 64) * 64 + s3 % 64, 4)

/-- A concatenation of complete encodings of white-space runes. -/
inductive SpaceRun : Str → Prop
  | nil : SpaceRun []
  | cons (e rest : Str) : e ≠ [] → IsSpace (DecodeRuneInString e).1 = true →
      (DecodeRuneInString e).2 = e.length → SpaceRun rest → SpaceRun (e ++ rest)

/-- Whether `s` begins with a white-space rune. -/
def leadingSpace (s : Str) : Bool := IsSpace (DecodeRuneInString s).1

/-- Whether `s` ends with a white-space rune. -/
def trailingSpace (s : Str) : Bool := IsSpace (DecodeLastRuneInString s).1

/-- Whether `s` consists of white space only: decoding it rune by rune finds
no rune that is not white space. -/
def onlySpace (s : Str) : Bool := (indexFunc s IsSpace false).isNone

/-- The token `t` is the piece `p` with its leading and trailing white space
stripped: `p` is white space, then `t`, then white space, and `t` neither
begins nor ends with white space. -/
def Stripped (p t : Str) : Prop :=
  ∃ pre suf, p = pre ++ t ++ suf ∧ onlySpace pre = true ∧ onlySpace suf = true ∧
    leadingSpace t = false ∧ trailingSpace t = false

/-! ## Decoding one rune -/

theorem decode_nil : DecodeRuneInString [] = (RuneError, 0) := rfl

theorem isSpace_runeError : IsSpace RuneError = false := by decide

/-- The value of `first b` is one of nine constants, and tells where `b` lies. -/
theorem first_cases (b : Nat) :
    (first b = 0xF0 ∧ b < 0x80) ∨ (first b = 0xF1 ∧ 0x80 ≤ b) ∨
    ((first b = 0x02 ∨ first b = 0x13 ∨ first b = 0x03 ∨ first b = 0x23 ∨
      first b = 0x34 ∨ first b = 0x04 ∨ first b = 0x44) ∧ 0xC2 ≤ b) := by
  unfold first
  split_ifs <;> simp <;> omega

theorem decode_eq_decodeWith (s : Str) (h : s ≠ []) :
    DecodeRuneInString s = decodeWith (first (byteAt s 0)) s := by
  have hl : ¬ s.length < 1 := by
    have := List.length_pos.mpr h; omega
  unfold DecodeRuneInString decodeWith
  simp only [hl, if_false]

theorem decode_size_pos (s : Str) (h : s ≠ []) : 1 ≤ (DecodeRuneInString s).2 := by
  rw [decode_eq_decodeWith s h]
  unfold decodeWith
  simp only []
  split_ifs <;> simp

theorem decode_size_le (s : Str) (h : s ≠ []) : (DecodeRuneInString s).2 ≤ s.length := by
  have hl : 1 ≤ s.length := List.length_pos.mpr h
  rw [decode_eq_decodeWith s h]
  rcases first_cases (byteAt s 0) with ⟨h, _⟩ | ⟨h, _⟩ | ⟨h | h | h | h | h | h | h, _⟩ <;>
    rw [h] <;> simp only [decodeWith, acceptRanges] <;> norm_num <;>
    first | omega | (split_ifs <;> simp <;> omega)

theorem decode_ascii (s : Str) (h : s ≠ []) (h0 : byteAt s 0 < 0x80) :
    DecodeRuneInString s = (byteAt s 0, 1) := by
  rw [decode_eq_decodeWith s h]
  have hf : first (byteAt s 0) = 0xF0 := by
    unfold first; rw [if_pos h0]
  rw [hf]; simp [decodeWith]

theorem decode_append (s ys : Str) (h : s ≠ []) (hv : DecodeRuneInString s ≠ (RuneError, 1)) :
    DecodeRuneInString (s ++ ys) = DecodeRuneInString s := by
  have hl : 1 ≤ s.length := List.length_pos.mpr h
  have h' : s ++ ys ≠ [] := by simp [h]
  have g0 : byteAt (s ++ ys) 0 = byteAt s 0 := by
    cases s with
    | nil => exact absurd rfl h
    | cons a t => rfl
  rw [decode_eq_decodeWith s h] at hv ⊢
  rw [decode_eq_decodeWith _ h', g0]
  have g : ∀ i, i < s.length → byteAt (s ++ ys) i = byteAt s i := by
    intro i hi
    simp [byteAt, List.getD_eq_getElem?_getD, List.getElem?_append_left hi]
  rcases first_cases (byteAt s 0) with ⟨h, _⟩ | ⟨h, _⟩ | ⟨h | h | h | h | h | h | h, _⟩ <;>
    rw [h] at hv ⊢ <;> simp only [decodeWith, acceptRanges] at hv ⊢ <;> norm_num at hv ⊢
  all_goals first
    | exact g0
    | exact absurd rfl hv
    | (rw [g0, g 1 (by omega)]
       try rw [g 2 (by omega)]
       try rw [g 3 (by omega)]
       split_ifs <;> first | rfl | omega)

theorem decode_nonCont (s : Str) (h : s ≠ []) (hv : DecodeRuneInString s ≠ (RuneError, 1)) :
    nonCont (byteAt s 0) := by
  rw [decode_eq_decodeWith s h] at hv
  unfold nonCont
  rcases first_cases (byteAt s 0) with ⟨h, _⟩ | ⟨h, _⟩ | ⟨_, _⟩
  · omega
  · rw [h] at hv; simp [decodeWith] at hv
  · omega

theorem decode_invalid (s : Str) (h : s ≠ []) (h0 : 0x80 ≤ byteAt s 0)
    (h1 : s.length = 1 ∨ nonCont (byteAt s 1)) : DecodeRuneInString s = (RuneError, 1) := by
  rw [decode_eq_decodeWith s h]
  unfold nonCont at h1
  rcases first_cases (byteAt s 0) with ⟨h, _⟩ | ⟨h, _⟩ | ⟨h | h | h | h | h | h | h, _⟩ <;>
    rw [h] <;> simp only [decodeWith, acceptRanges] <;> norm_num <;>
    omega

theorem decode_take (s : Str) (m : Nat) (h : s ≠ []) (hv : DecodeRuneInString s ≠ (RuneError, 1))
    (hm : (DecodeRuneInString s).2 ≤ m) : DecodeRuneInString (s.take m) = DecodeRuneInString s := by
  have hl : 1 ≤ s.length := List.length_pos.mpr h
  have hm1 : 1 ≤ m := le_trans (decode_size_pos s h) hm
  have h' : s.take m ≠ [] := by
    intro hc
    rcases List.take_eq_nil_iff.mp hc with hc | hc
    · omega
    · exact h hc
  have g : ∀ i, i < m → byteAt (s.take m) i = byteAt s i := by
    intro i hi
    simp [byteAt, List.getD_eq_getElem?_getD, List.getElem?_take, hi]
  rw [decode_eq_decodeWith s h] at hv hm ⊢
  rw [decode_eq_decodeWith _ h', g 0 (by omega)]
  rcases first_cases (byteAt s 0) with ⟨h, _⟩ | ⟨h, _⟩ | ⟨h | h | h | h | h | h | h, _⟩ <;>
    rw [h] at hv hm ⊢ <;> simp only [decodeWith, acceptRanges] at hv hm ⊢ <;> norm_num at hv hm ⊢
  all_goals first
    | exact g 0 (by omega)
    | exact absurd rfl hv
    | (split_ifs at hm <;> first
        | omega
        | (dsimp only at hm
           rw [g 0 (by omega), g 1 (by omega)]
           try rw [g 2 (by omega)]
           try rw [g 3 (by omega)]
           split_ifs <;> first | rfl | omega))

theorem scanRuneStart_le (s : Str) (lim : Int) (fuel : Nat) (start : Int) :
    scanRuneStart s lim fuel start ≤ start := by
  induction fuel generalizing start with
  | zero => simp [scanRuneStart]
  | succ k ih =>
    unfold scanRuneStart
    split_ifs
    · exact le_refl _
    · have := ih (start - 1); omega
    · exact le_refl _

theorem scanRuneStart_fuel (s : Str) (lim : Int) (fuel fuel' : Nat) (start : Int)
    (h : start < lim + fuel) (hf : fuel ≤ fuel') :
    scanRuneStart s lim fuel' start = scanRuneStart s lim fuel start := by
  induction fuel generalizing fuel' start with
  | zero =>
    have hlt : ¬ start ≥ lim := by simp at h; omega
    cases fuel' with
    | zero => rfl
    | succ n => simp only [scanRuneStart, hlt, if_false]
  | succ k ih =>
    cases fuel' with
    | zero => omega
    | succ n =>
      simp only [scanRuneStart]
      split_ifs
      · rfl
      · exact ih n (start - 1) (by push_cast at h; omega) (by omega)
      · rfl

theorem decodeLast_nil : DecodeLastRuneInString [] = (RuneError, 0) := rfl

/-- The three ways in which `DecodeLastRuneInString` produces its result. -/
theorem decodeLast_cases (s : Str) (h : s ≠ []) :
    (byteAt s (s.length - 1) < 0x80 ∧
      DecodeLastRuneInString s = (byteAt s (s.length - 1), 1)) ∨
    (0x80 ≤ byteAt s (s.length - 1) ∧
      (DecodeLastRuneInString s = (RuneError, 1) ∨
       (1 ≤ (DecodeLastRuneInString s).2 ∧ (DecodeLastRuneInString s).2 ≤ s.length ∧
        DecodeRuneInString (s.drop (s.length - (DecodeLastRuneInString s).2)) =
          DecodeLastRuneInString s))) := by
  have hl : 1 ≤ s.length := List.length_pos.mpr h
  have hl0 : s.length ≠ 0 := by omega
  by_cases hb : byteAt s (s.length - 1) < 0x80
  · left
    refine ⟨hb, ?_⟩
    unfold DecodeLastRuneInString
    simp only [hl0, if_false, RuneSelf, hb, if_true]
  · right
    refine ⟨by omega, ?_⟩
    unfold DecodeLastRuneInString
    simp only [hl0, if_false, RuneSelf, hb, List.take_length]
    have hle := scanRuneStart_le s
      (if (s.length : Int) - UTFMax < 0 then 0 else (s.length : Int) - UTFMax) UTFMax
      (((s.length - 1 : Nat) : Int) - 1)
    generalize scanRuneStart s _ UTFMax _ = z at hle ⊢
    generalize hst : (if z < 0 then 0 else z.toNat) = start
    have hlt : start < s.length := by
      rw [← hst]
      split_ifs <;> omega
    have hne : s.drop start ≠ [] := by
      intro hc
      have := congrArg List.length hc
      simp at this; omega
    have h1 := decode_size_pos _ hne
    by_cases he : start + (DecodeRuneInString (s.drop start)).2 = s.length
    · right
      simp only [he, ne_eq, not_true_eq_false, if_false]
      have : s.length - (DecodeRuneInString (s.drop start)).2 = start := by omega
      rw [this]
      exact ⟨h1, by omega, rfl⟩
    · left
      simp only [he, ne_eq, not_false_eq_true, if_true]


/-! ## Runs of white space and the forward loop -/

theorem decode_ne_of_isSpace (s : Str) (h : IsSpace (DecodeRuneInString s).1 = true) :
    DecodeRuneInString s ≠ (RuneError, 1) := by
  intro hc
  rw [hc] at h
  exact absurd h (by decide)

theorem SpaceRun.append {a b : Str} (ha : SpaceRun a) (hb : SpaceRun b) : SpaceRun (a ++ b) := by
  induction ha with
  | nil => simpa using hb
  | cons e rest he hs hw _ ih =>
    rw [List.append_assoc]
    exact SpaceRun.cons e (rest ++ b) he hs hw ih

theorem SpaceRun.single (e : Str) (he : e ≠ []) (hs : IsSpace (DecodeRuneInString e).1 = true)
    (hw : (DecodeRuneInString e).2 = e.length) : SpaceRun e := by
  have := SpaceRun.cons e [] he hs hw SpaceRun.nil
  simpa using this

theorem byteAt_append_zero (e rest : Str) (he : e ≠ []) : byteAt (e ++ rest) 0 = byteAt e 0 := by
  cases e with
  | nil => exact absurd rfl he
  | cons a t => rfl

theorem SpaceRun.head_nonCont {t : Str} (h : SpaceRun t) : t = [] ∨ nonCont (byteAt t 0) := by
  induction h with
  | nil => left; rfl
  | cons e rest he hs hw _ _ =>
    right
    rw [byteAt_append_zero e rest he]
    exact decode_nonCont e he (decode_ne_of_isSpace e hs)

/-- The forward loop either runs off the end through white space only, or
stops at the first rune that is not white space. -/
theorem indexFuncLoop_spec (s : Str) (fuel i : Nat) (hi : i ≤ s.length)
    (hf : s.length ≤ i + fuel) (hpre : SpaceRun (s.take i)) :
    (indexFuncLoop s IsSpace false fuel i = none ∧ SpaceRun s) ∨
    ∃ k, indexFuncLoop s IsSpace false fuel i = some k ∧ i ≤ k ∧ k < s.length ∧
      SpaceRun (s.take k) ∧ IsSpace (DecodeRuneInString (s.drop k)).1 = false := by
  induction fuel generalizing i with
  | zero =>
    left
    have : i = s.length := by omega
    subst this
    simp only [List.take_length] at hpre
    exact ⟨rfl, hpre⟩
  | succ n ih =>
    unfold indexFuncLoop
    by_cases hlt : i < s.length
    · simp only [hlt, if_true]
      have hne : s.drop i ≠ [] := by
        intro hc
        have := congrArg List.length hc
        simp at this; omega
      have hw1 := decode_size_pos _ hne
      have hw2 := decode_size_le _ hne
      rw [List.length_drop] at hw2
      by_cases hsp : IsSpace (DecodeRuneInString (s.drop i)).1 = false
      · right
        exact ⟨i, by simp [hsp], le_refl _, hlt, hpre, hsp⟩
      · have hsp' : IsSpace (DecodeRuneInString (s.drop i)).1 = true := by
          simpa using hsp
        simp only [hsp, if_false]
        have hrun : SpaceRun (s.take (i + (DecodeRuneInString (s.drop i)).2)) := by
          rw [List.take_add]
          refine SpaceRun.append hpre (SpaceRun.single _ ?_ ?_ ?_)
          · intro hc
            rcases List.take_eq_nil_iff.mp hc with hc | hc
            · omega
            · exact hne hc
          · rw [decode_take _ _ hne (decode_ne_of_isSpace _ hsp') (le_refl _)]
            exact hsp'
          · rw [decode_take _ _ hne (decode_ne_of_isSpace _ hsp') (le_refl _)]
            simp; omega
        rcases ih (i + (DecodeRuneInString (s.drop i)).2) (by omega) (by omega) hrun with h | ⟨k, h1, h2, h3, h4, h5⟩
        · left; exact h
        · right; exact ⟨k, h1, by omega, h3, h4, h5⟩
    · left
      have : i = s.length := by omega
      subst this
      simp only [List.take_length] at hpre
      simp [hpre]


/-! ## The backward loop and the two one-sided trims -/

theorem byteAt_drop (s : Str) (a b : Nat) : byteAt (s.drop a) b = byteAt s (a + b) := by
  simp [byteAt, List.getD_eq_getElem?_getD, List.getElem?_drop]

theorem byteAt_take (s : Str) (j i : Nat) (h : i < j) : byteAt (s.take j) i = byteAt s i := by
  simp [byteAt, List.getD_eq_getElem?_getD, List.getElem?_take, h]

theorem drop_ne_nil (s : Str) (i : Nat) (h : i < s.length) : s.drop i ≠ [] := by
  intro hc
  have := List.drop_eq_nil_iff.mp hc
  omega

theorem take_ne_nil (s : Str) (i : Nat) (h : 0 < i) (hs : s ≠ []) : s.take i ≠ [] := by
  intro hc
  rcases List.take_eq_nil_iff.mp hc with hc | hc
  · omega
  · exact hs hc

theorem drop_split (s : Str) (k j : Nat) (h : k ≤ j) (hj : j ≤ s.length) :
    s.drop k = (s.take j).drop k ++ s.drop j := by
  calc s.drop k = (s.take j ++ s.drop j).drop k := by rw [List.take_append_drop]
    _ = (s.take j).drop k ++ s.drop j :=
        List.drop_append_of_le_length (by simp; omega)

theorem decodeLast_size (t : Str) (h : t ≠ []) :
    1 ≤ (DecodeLastRuneInString t).2 ∧ (DecodeLastRuneInString t).2 ≤ t.length := by
  have hl : 1 ≤ t.length := List.length_pos.mpr h
  rcases decodeLast_cases t h with ⟨_, h2⟩ | ⟨_, h2 | ⟨h2, h3, _⟩⟩
  · rw [h2]; exact ⟨le_refl _, hl⟩
  · rw [h2]; exact ⟨le_refl _, hl⟩
  · exact ⟨h2, h3⟩

/-- Unless the backward decoder reports an invalid encoding, decoding its last
chunk forwards gives the same rune and width. -/
theorem decodeLast_drop (t : Str) (h : t ≠ []) (hv : DecodeLastRuneInString t ≠ (RuneError, 1)) :
    DecodeRuneInString (t.drop (t.length - (DecodeLastRuneInString t).2)) =
      DecodeLastRuneInString t := by
  have hl : 1 ≤ t.length := List.length_pos.mpr h
  rcases decodeLast_cases t h with ⟨h1, h2⟩ | ⟨_, h2 | ⟨_, _, h4⟩⟩
  · rw [h2]
    have hne : t.drop (t.length - 1) ≠ [] := drop_ne_nil t _ (by omega)
    have hb : byteAt (t.drop (t.length - 1)) 0 = byteAt t (t.length - 1) := by
      rw [byteAt_drop]; rfl
    rw [decode_ascii _ hne (by rw [hb]; exact h1), hb]
  · exact absurd h2 hv
  · exact h4

/-- The backward loop either runs off the front through white space only, or
stops at the last rune that is not white space. -/
theorem lastIndexFuncLoop_spec (s : Str) (fuel i : Nat) (hf : i ≤ fuel) (hi : i ≤ s.length)
    (hsuf : SpaceRun (s.drop i)) :
    (lastIndexFuncLoop s IsSpace false fuel i = none ∧ SpaceRun s) ∨
    ∃ j, 0 < j ∧ j ≤ i ∧ SpaceRun (s.drop j) ∧
      IsSpace (DecodeLastRuneInString (s.take j)).1 = false ∧
      lastIndexFuncLoop s IsSpace false fuel i =
        some (j - (DecodeLastRuneInString (s.take j)).2) := by
  induction fuel generalizing i with
  | zero =>
    left
    have : i = 0 := by omega
    subst this
    exact ⟨rfl, by simpa using hsuf⟩
  | succ n ih =>
    unfold lastIndexFuncLoop
    by_cases hpos : i > 0
    · simp only [hpos, if_true]
      have hs : s ≠ [] := by
        intro hc; rw [hc] at hi; simp at hi; omega
      have hne : s.take i ≠ [] := take_ne_nil s i hpos hs
      have hlen : (s.take i).length = i := by simp; omega
      have hsz := decodeLast_size _ hne
      rw [hlen] at hsz
      by_cases hsp : IsSpace (DecodeLastRuneInString (s.take i)).1 = false
      · right
        exact ⟨i, hpos, le_refl _, hsuf, hsp, by simp [hsp]⟩
      · have hsp' : IsSpace (DecodeLastRuneInString (s.take i)).1 = true := by
          simpa using hsp
        simp only [hsp, if_false]
        have hv : DecodeLastRuneInString (s.take i) ≠ (RuneError, 1) := by
          intro hc; rw [hc] at hsp'; exact absurd hsp' (by decide)
        have hd := decodeLast_drop _ hne hv
        rw [hlen] at hd
        have hrun : SpaceRun (s.drop (i - (DecodeLastRuneInString (s.take i)).2)) := by
          have hsplit : s.drop (i - (DecodeLastRuneInString (s.take i)).2) =
              (s.take i).drop (i - (DecodeLastRuneInString (s.take i)).2) ++ s.drop i := by
            exact drop_split s _ i (by omega) hi
          rw [hsplit]
          refine SpaceRun.append (SpaceRun.single _ ?_ ?_ ?_) hsuf
          · exact drop_ne_nil _ _ (by rw [hlen]; omega)
          · rw [hd]; exact hsp'
          · rw [hd]; simp; omega
        rcases ih (i - (DecodeLastRuneInString (s.take i)).2) (by omega) (by omega) hrun with
          h | ⟨j, h1, h2, h3, h4, h5⟩
        · left; exact h
        · right; exact ⟨j, h1, by omega, h3, h4, h5⟩
    · left
      have : i = 0 := by omega
      subst this
      exact ⟨by simp, by simpa using hsuf⟩

/-- The forward re-decoding in `TrimRightFunc` ends where the backward loop stopped. -/
theorem trimRight_cut (s : Str) (j : Nat) (hj0 : 0 < j) (hj : j ≤ s.length)
    (hsuf : SpaceRun (s.drop j)) :
    (if byteAt s (j - (DecodeLastRuneInString (s.take j)).2) ≥ RuneSelf then
      s.take (j - (DecodeLastRuneInString (s.take j)).2 +
        (DecodeRuneInString (s.drop (j - (DecodeLastRuneInString (s.take j)).2))).2)
     else s.take (j - (DecodeLastRuneInString (s.take j)).2 + 1)) = s.take j := by
  have hs : s ≠ [] := by
    intro hc; rw [hc] at hj; simp at hj; omega
  have hne : s.take j ≠ [] := take_ne_nil s j hj0 hs
  have hlen : (s.take j).length = j := by simp; omega
  have hsz := decodeLast_size _ hne
  rw [hlen] at hsz
  by_cases hv : DecodeLastRuneInString (s.take j) = (RuneError, 1)
  · -- the last byte is not ASCII and the chunk is that single byte
    have hb : 0x80 ≤ byteAt s (j - 1) := by
      rcases decodeLast_cases _ hne with ⟨h1, h2⟩ | ⟨h1, _⟩
      · rw [hv] at h2
        have h3 : (65533 : Nat) = byteAt (s.take j) ((s.take j).length - 1) := (Prod.mk.inj h2).1
        omega
      · rw [hlen, byteAt_take s j (j - 1) (by omega)] at h1
        exact h1
    rw [hv]
    simp only [RuneSelf, ge_iff_le, hb, if_true]
    have hne' : s.drop (j - 1) ≠ [] := drop_ne_nil s _ (by omega)
    have hinv : DecodeRuneInString (s.drop (j - 1)) = (RuneError, 1) := by
      apply decode_invalid _ hne'
      · rw [byteAt_drop]; exact hb
      · rcases hsuf.head_nonCont with h | h
        · left
          have := List.drop_eq_nil_iff.mp h
          simp; omega
        · right
          rw [byteAt_drop] at h ⊢
          have : j - 1 + 1 = j + 0 := by omega
          rw [this]; exact h
    rw [hinv]
    have : j - 1 + 1 = j := by omega
    rw [this]
  · have hd := decodeLast_drop _ hne hv
    rw [hlen] at hd
    generalize hk : j - (DecodeLastRuneInString (s.take j)).2 = k at hd ⊢
    have hkj : k < j := by omega
    have hne' : (s.take j).drop k ≠ [] := drop_ne_nil _ _ (by rw [hlen]; exact hkj)
    have hfwd : DecodeRuneInString (s.drop k) = DecodeLastRuneInString (s.take j) := by
      rw [drop_split s k j (by omega) hj, decode_append _ _ hne' (by rw [hd]; exact hv), hd]
    have hb0 : byteAt ((s.take j).drop k) 0 = byteAt s k := by
      rw [byteAt_drop, byteAt_take s j _ (by omega)]; rfl
    by_cases hge : byteAt s k ≥ RuneSelf
    · simp only [hge, if_true]
      rw [hfwd]
      have : k + (DecodeLastRuneInString (s.take j)).2 = j := by omega
      rw [this]
    · simp only [hge, if_false]
      have hasc := decode_ascii _ hne' (by rw [hb0]; simp only [RuneSelf] at hge; omega)
      rw [hd] at hasc
      have h1 : (DecodeLastRuneInString (s.take j)).2 = 1 := by rw [hasc]
      have : k + 1 = j := by omega
      rw [this]

theorem TrimLeftFunc_spec (s : Str) :
    ∃ k, k ≤ s.length ∧ TrimLeftFunc s IsSpace = s.drop k ∧ SpaceRun (s.take k) ∧
      IsSpace (DecodeRuneInString (TrimLeftFunc s IsSpace)).1 = false := by
  unfold TrimLeftFunc indexFunc
  rcases indexFuncLoop_spec s s.length 0 (Nat.zero_le _) (by omega) (by simpa using SpaceRun.nil)
    with ⟨h, hr⟩ | ⟨k, h1, _, h3, h4, h5⟩
  · refine ⟨s.length, le_refl _, ?_, by simpa using hr, ?_⟩ <;> rw [h] <;> simp
    decide
  · refine ⟨k, by omega, ?_, h4, ?_⟩ <;> rw [h1]
    exact h5

theorem TrimLeftFunc_fixed (s : Str) (h : IsSpace (DecodeRuneInString s).1 = false) :
    TrimLeftFunc s IsSpace = s := by
  unfold TrimLeftFunc indexFunc
  cases s with
  | nil => rfl
  | cons a t =>
    simp only [List.length_cons]
    unfold indexFuncLoop
    simp [h]

theorem TrimRightFunc_spec (s : Str) :
    ∃ j, j ≤ s.length ∧ TrimRightFunc s IsSpace = s.take j ∧ SpaceRun (s.drop j) ∧
      IsSpace (DecodeLastRuneInString (TrimRightFunc s IsSpace)).1 = false := by
  unfold TrimRightFunc lastIndexFunc
  rcases lastIndexFuncLoop_spec s s.length s.length (le_refl _) (le_refl _)
    (by simpa using SpaceRun.nil) with ⟨h, hr⟩ | ⟨j, h1, h2, h3, h4, h5⟩
  · rw [h]
    refine ⟨0, Nat.zero_le _, rfl, by simpa using hr, ?_⟩
    simp only [List.take_zero]
    decide
  · have hcut := trimRight_cut s j h1 h2 h3
    refine ⟨j, h2, ?_, h3, ?_⟩ <;> rw [h5] <;> simp only [] <;> rw [hcut]
    exact h4

theorem TrimRightFunc_fixed (s : Str) (h : IsSpace (DecodeLastRuneInString s).1 = false) :
    TrimRightFunc s IsSpace = s := by
  cases s with
  | nil => rfl
  | cons a t =>
    have hcut := trimRight_cut (a :: t) (a :: t).length (by simp) (le_refl _)
      (by simpa using SpaceRun.nil)
    rw [List.take_length] at hcut
    have hloop : lastIndexFuncLoop (a :: t) IsSpace false (a :: t).length (a :: t).length =
        some ((a :: t).length - (DecodeLastRuneInString (a :: t)).2) := by
      have hl : (a :: t).length = t.length + 1 := rfl
      rw [hl]
      unfold lastIndexFuncLoop
      rw [← hl, List.take_length]
      simp [h]
    unfold TrimRightFunc lastIndexFunc
    rw [hloop]
    exact hcut


/-! ## The loops of `TrimSpace` -/

theorem asciiSpace_isSpace (c : Nat) (h : asciiSpace c ≠ 0) : IsSpace c = true := by
  unfold asciiSpace at h
  split_ifs at h with hc
  · rcases hc with hc | hc | hc | hc | hc | hc <;> subst hc <;> decide
  · exact absurd rfl h

theorem isSpace_of_ascii (c : Nat) (hc : c < 0x80) (h : asciiSpace c = 0) : IsSpace c = false := by
  unfold asciiSpace at h
  split_ifs at h with hs
  have h255 : c ≤ 0xFF := by omega
  unfold IsSpace
  simp only [h255, if_true]
  simp only [not_or] at hs
  simp
  omega

theorem asciiSpace_of_not_isSpace (c : Nat) (h : IsSpace c = false) : asciiSpace c = 0 := by
  by_contra hc
  rw [asciiSpace_isSpace c hc] at h
  exact absurd h (by decide)

theorem leading_take (L : Str) (j : Nat) (h : IsSpace (DecodeRuneInString L).1 = false) :
    IsSpace (DecodeRuneInString (L.take j)).1 = false := by
  by_contra hc
  have hc' : IsSpace (DecodeRuneInString (L.take j)).1 = true := by simpa using hc
  have hne : L.take j ≠ [] := by
    intro he; rw [he] at hc'; exact absurd hc' (by decide)
  have := decode_append (L.take j) (L.drop j) hne (decode_ne_of_isSpace _ hc')
  rw [List.take_append_drop] at this
  rw [this, hc'] at h
  exact absurd h (by decide)

theorem TrimFunc_spec (s : Str) :
    ∃ pre suf, s = pre ++ TrimFunc s IsSpace ++ suf ∧ SpaceRun pre ∧ SpaceRun suf ∧
      leadingSpace (TrimFunc s IsSpace) = false ∧ trailingSpace (TrimFunc s IsSpace) = false := by
  obtain ⟨k, _, hL, hpre, hlead⟩ := TrimLeftFunc_spec s
  obtain ⟨j, _, hR, hsuf, htrail⟩ := TrimRightFunc_spec (TrimLeftFunc s IsSpace)
  refine ⟨s.take k, (TrimLeftFunc s IsSpace).drop j, ?_, hpre, hsuf, ?_, ?_⟩
  · unfold TrimFunc
    rw [hR, List.append_assoc, List.take_append_drop, hL, List.take_append_drop]
  · unfold TrimFunc leadingSpace
    rw [hR]
    exact leading_take _ j hlead
  · exact htrail

theorem TrimFunc_fixed (t : Str) (h1 : leadingSpace t = false) (h2 : trailingSpace t = false) :
    TrimFunc t IsSpace = t := by
  unfold TrimFunc
  rw [TrimLeftFunc_fixed t h1, TrimRightFunc_fixed t h2]

theorem decodeLast_ascii (t : Str) (h : t ≠ []) (hb : byteAt t (t.length - 1) < 0x80) :
    DecodeLastRuneInString t = (byteAt t (t.length - 1), 1) := by
  rcases decodeLast_cases t h with ⟨_, h2⟩ | ⟨h1, _⟩
  · exact h2
  · omega

theorem take_succ_byteAt (s : Str) (i : Nat) (h : i < s.length) :
    s.take (i + 1) = s.take i ++ [byteAt s i] := by
  rw [List.take_succ]
  simp [byteAt, List.getD_eq_getElem?_getD, List.getElem?_eq_getElem h]

theorem drop_pred_byteAt (s : Str) (i : Nat) (h0 : 0 < i) (h : i ≤ s.length) :
    s.drop (i - 1) = byteAt s (i - 1) :: s.drop i := by
  have hlt : i - 1 < s.length := by omega
  have h1 := List.drop_eq_getElem_cons hlt
  have h2 : i - 1 + 1 = i := by omega
  rw [h2] at h1
  rw [h1]
  simp [byteAt, List.getD_eq_getElem?_getD, List.getElem?_eq_getElem hlt]

theorem SpaceRun.asciiByte (c : Nat) (hc : c < 0x80) (h : asciiSpace c ≠ 0) : SpaceRun [c] := by
  have hd : DecodeRuneInString [c] = (c, 1) := decode_ascii [c] (by simp) hc
  refine SpaceRun.single [c] (by simp) ?_ ?_
  · rw [hd]; exact asciiSpace_isSpace c h
  · rw [hd]; rfl

/-- The first loop of `TrimSpace` skips ASCII white space only. -/
theorem trimSpaceStart_spec (s : Str) (fuel start : Nat) (hs : start ≤ s.length)
    (hf : s.length ≤ start + fuel) (hpre : SpaceRun (s.take start)) :
    (∃ k, k < s.length ∧ SpaceRun (s.take k) ∧ 0x80 ≤ byteAt s k ∧
      trimSpaceStart s fuel start = .inl (TrimFunc (s.drop k) IsSpace)) ∨
    (∃ k, k ≤ s.length ∧ SpaceRun (s.take k) ∧
      (k = s.length ∨ (k < s.length ∧ byteAt s k < 0x80 ∧ asciiSpace (byteAt s k) = 0)) ∧
      trimSpaceStart s fuel start = .inr k) := by
  induction fuel generalizing start with
  | zero =>
    right
    exact ⟨start, hs, hpre, Or.inl (by omega), rfl⟩
  | succ n ih =>
    unfold trimSpaceStart
    by_cases hlt : start < s.length
    · simp only [hlt, if_true]
      by_cases hge : byteAt s start ≥ RuneSelf
      · left
        exact ⟨start, hlt, hpre, hge, by simp [hge]⟩
      · simp only [hge, if_false]
        have hlt80 : byteAt s start < 0x80 := by simp only [RuneSelf] at hge; omega
        by_cases hz : asciiSpace (byteAt s start) = 0
        · right
          exact ⟨start, hs, hpre, Or.inr ⟨hlt, hlt80, hz⟩, by simp [hz]⟩
        · simp only [hz, if_false]
          apply ih (start + 1) (by omega) (by omega)
          rw [take_succ_byteAt s start hlt]
          exact SpaceRun.append hpre (SpaceRun.asciiByte _ hlt80 hz)
    · right
      exact ⟨start, hs, hpre, Or.inl (by omega), by simp [hlt]⟩

/-- The second loop of `TrimSpace` skips ASCII white space only and never
passes a byte that is not white space. -/
theorem trimSpaceStop_spec (s : Str) (start fuel stop : Nat) (hf : stop ≤ fuel)
    (hs : stop ≤ s.length) (hlt : start < stop)
    (hz : asciiSpace (byteAt s start) = 0) (hsuf : SpaceRun (s.drop stop)) :
    (∃ k, start < k ∧ k ≤ s.length ∧ SpaceRun (s.drop k) ∧
      trimSpaceStop s start fuel stop = .inl (TrimRightFunc ((s.take k).drop start) IsSpace)) ∨
    (∃ k, start < k ∧ k ≤ s.length ∧ SpaceRun (s.drop k) ∧
      byteAt s (k - 1) < 0x80 ∧ asciiSpace (byteAt s (k - 1)) = 0 ∧
      trimSpaceStop s start fuel stop = .inr k) := by
  induction fuel generalizing stop with
  | zero => omega
  | succ n ih =>
    unfold trimSpaceStop
    simp only [gt_iff_lt, hlt, if_true]
    by_cases hge : byteAt s (stop - 1) ≥ RuneSelf
    · left
      exact ⟨stop, hlt, hs, hsuf, by simp [hge]⟩
    · simp only [hge, if_false]
      have hlt80 : byteAt s (stop - 1) < 0x80 := by simp only [RuneSelf] at hge; omega
      by_cases hz' : asciiSpace (byteAt s (stop - 1)) = 0
      · right
        exact ⟨stop, hlt, hs, hsuf, hlt80, hz', by simp [hz']⟩
      · simp only [hz', if_false]
        have hne : start ≠ stop - 1 := by
          intro he; rw [← he] at hz'; exact hz' hz
        apply ih (stop - 1) (by omega) (by omega) (by omega)
        rw [drop_pred_byteAt s stop (by omega) hs]
        have := SpaceRun.append (SpaceRun.asciiByte _ hlt80 hz') hsuf
        simpa using this


/-! ## The loop bounds are sufficient -/

/-- With `len(s) - i` iterations the forward loop has left the string: more
fuel does not change its result. -/
theorem indexFuncLoop_fuel (s : Str) (f : Nat → Bool) (truth : Bool) (fuel fuel' i : Nat)
    (h : s.length ≤ i + fuel) (hf : fuel ≤ fuel') :
    indexFuncLoop s f truth fuel' i = indexFuncLoop s f truth fuel i := by
  induction fuel generalizing fuel' i with
  | zero =>
    have hge : ¬ i < s.length := by omega
    cases fuel' with
    | zero => rfl
    | succ n => simp only [indexFuncLoop, hge, if_false]
  | succ k ih =>
    cases fuel' with
    | zero => omega
    | succ n =>
      simp only [indexFuncLoop]
      by_cases hlt : i < s.length
      · simp only [hlt, if_true]
        have hw := decode_size_pos _ (drop_ne_nil s i hlt)
        split_ifs
        · rfl
        · exact ih n _ (by omega) (by omega)
      · simp only [hlt, if_false]

/-- With `i` iterations the backward loop has reached the front of the string:
more fuel does not change its result. -/
theorem lastIndexFuncLoop_fuel (s : Str) (f : Nat → Bool) (truth : Bool) (fuel fuel' i : Nat)
    (h : i ≤ fuel) (hf : fuel ≤ fuel') (hi : i ≤ s.length) :
    lastIndexFuncLoop s f truth fuel' i = lastIndexFuncLoop s f truth fuel i := by
  induction fuel generalizing fuel' i with
  | zero =>
    have hge : ¬ i > 0 := by omega
    cases fuel' with
    | zero => rfl
    | succ n => simp only [lastIndexFuncLoop, hge, if_false]
  | succ k ih =>
    cases fuel' with
    | zero => omega
    | succ n =>
      simp only [lastIndexFuncLoop]
      by_cases hpos : i > 0
      · simp only [hpos, if_true]
        have hs : s ≠ [] := by
          intro hc; rw [hc] at hi; simp at hi; omega
        have hsz := decodeLast_size _ (take_ne_nil s i hpos hs)
        split_ifs
        · rfl
        · exact ih n _ (by omega) (by omega) (by omega)
      · simp only [hpos, if_false]

/-- More fuel does not change the result of the first loop of `TrimSpace`. -/
theorem trimSpaceStart_fuel (s : Str) (fuel fuel' start : Nat)
    (h : s.length ≤ start + fuel) (hf : fuel ≤ fuel') :
    trimSpaceStart s fuel' start = trimSpaceStart s fuel start := by
  induction fuel generalizing fuel' start with
  | zero =>
    have hge : ¬ start < s.length := by omega
    cases fuel' with
    | zero => rfl
    | succ n => simp only [trimSpaceStart, hge, if_false]
  | succ k ih =>
    cases fuel' with
    | zero => omega
    | succ n =>
      simp only [trimSpaceStart]
      split_ifs
      · rfl
      · rfl
      · exact ih n _ (by omega) (by omega)
      · rfl

/-- More fuel does not change the result of the second loop of `TrimSpace`. -/
theorem trimSpaceStop_fuel (s : Str) (start fuel fuel' stop : Nat)
    (h : stop ≤ start + fuel) (hf : fuel ≤ fuel') :
    trimSpaceStop s start fuel' stop = trimSpaceStop s start fuel stop := by
  induction fuel generalizing fuel' stop with
  | zero =>
    have hge : ¬ stop > start := by omega
    cases fuel' with
    | zero => rfl
    | succ n => simp only [trimSpaceStop, hge, if_false]
  | succ k ih =>
    cases fuel' with
    | zero => omega
    | succ n =>
      simp only [trimSpaceStop]
      split_ifs
      · rfl
      · rfl
      · exact ih n _ (by omega) (by omega)
      · rfl

/-! ## The contract of `TrimSpace` -/

/-- What `TrimSpace` returns: the argument is white space, then the result,
then white space, and the result neither begins nor ends with white space. -/
theorem TrimSpace_run (s : Str) :
    ∃ pre suf, s = pre ++ TrimSpace s ++ suf ∧ SpaceRun pre ∧ SpaceRun suf ∧
      leadingSpace (TrimSpace s) = false ∧ trailingSpace (TrimSpace s) = false := by
  unfold TrimSpace
  rcases trimSpaceStart_spec s s.length 0 (Nat.zero_le _) (by omega)
    (by simpa using SpaceRun.nil) with ⟨k, hk, hpre, _, he⟩ | ⟨k, hk, hpre, hor, he⟩
  · rw [he]
    obtain ⟨pre, suf, h1, h2, h3, h4, h5⟩ := TrimFunc_spec (s.drop k)
    refine ⟨s.take k ++ pre, suf, ?_, SpaceRun.append hpre h2, h3, h4, h5⟩
    simp only []
    rw [List.append_assoc, List.append_assoc, ← List.append_assoc pre, ← h1,
      List.take_append_drop]
  · rw [he]
    simp only []
    rcases hor with hlen | ⟨hklt, hb, hz⟩
    · -- the whole string is ASCII white space
      subst hlen
      have hstop : trimSpaceStop s s.length s.length s.length = .inr s.length := by
        cases hl : s.length with
        | zero => rfl
        | succ n => unfold trimSpaceStop; simp
      rw [hstop]
      simp only [List.take_length, List.drop_length]
      exact ⟨s, [], by simp, by simpa using hpre, SpaceRun.nil, by decide, by decide⟩
    · have hlead : ∀ m, k < m → m ≤ s.length →
          DecodeRuneInString ((s.take m).drop k) = (byteAt s k, 1) := by
        intro m hm hml
        have hne : (s.take m).drop k ≠ [] := drop_ne_nil _ _ (by simp; omega)
        have hb0 : byteAt ((s.take m).drop k) 0 = byteAt s k := by
          rw [byteAt_drop, byteAt_take s m _ (by omega)]; rfl
        rw [decode_ascii _ hne (by rw [hb0]; exact hb), hb0]
      rcases trimSpaceStop_spec s k s.length s.length (le_refl _) (le_refl _) hklt hz
        (by simpa using SpaceRun.nil) with ⟨m, hm, hml, hsuf, he2⟩ | ⟨m, hm, hml, hsuf, hb2, hz2, he2⟩
      · rw [he2]
        simp only []
        obtain ⟨j, _, hR, hsuf2, htrail⟩ := TrimRightFunc_spec ((s.take m).drop k)
        refine ⟨s.take k, ((s.take m).drop k).drop j ++ s.drop m, ?_, hpre,
          SpaceRun.append hsuf2 hsuf, ?_, htrail⟩
        · rw [hR, List.append_assoc, ← List.append_assoc (List.take j _), List.take_append_drop,
            ← drop_split s k m (by omega) hml, List.take_append_drop]
        · unfold leadingSpace
          rw [hR]
          apply leading_take
          rw [hlead m hm hml]
          exact isSpace_of_ascii _ hb hz
      · rw [he2]
        simp only []
        refine ⟨s.take k, s.drop m, ?_, hpre, hsuf, ?_, ?_⟩
        · rw [List.append_assoc, ← drop_split s k m (by omega) hml, List.take_append_drop]
        · unfold leadingSpace
          rw [hlead m hm hml]
          exact isSpace_of_ascii _ hb hz
        · unfold trailingSpace
          have hne : (s.take m).drop k ≠ [] := drop_ne_nil _ _ (by simp; omega)
          have hlen : ((s.take m).drop k).length = m - k := by simp; omega
          have hbl : byteAt ((s.take m).drop k) (((s.take m).drop k).length - 1) =
              byteAt s (m - 1) := by
            rw [hlen, byteAt_drop, byteAt_take s m _ (by omega)]
            congr 1; omega
          rw [decodeLast_ascii _ hne (by rw [hbl]; exact hb2), hbl]
          exact isSpace_of_ascii _ hb2 hz2

/-- A string that neither begins nor ends with white space is left as it is. -/
theorem TrimSpace_fixed (t : Str) (h1 : leadingSpace t = false) (h2 : trailingSpace t = false) :
    TrimSpace t = t := by
  cases t with
  | nil => rfl
  | cons a u =>
    have hne : (a :: u) ≠ [] := by simp
    have hl : (a :: u).length = u.length + 1 := rfl
    unfold TrimSpace
    by_cases ha : a ≥ RuneSelf
    · have h0 : trimSpaceStart (a :: u) (a :: u).length 0 =
          .inl (TrimFunc (a :: u) IsSpace) := by
        rw [hl]; unfold trimSpaceStart
        have : byteAt (a :: u) 0 = a := rfl
        simp [this, ha]
      rw [h0]
      exact TrimFunc_fixed _ h1 h2
    · have halt : a < 0x80 := by simp only [RuneSelf] at ha; omega
      have hb0 : byteAt (a :: u) 0 = a := rfl
      have hz : asciiSpace a = 0 := by
        apply asciiSpace_of_not_isSpace
        unfold leadingSpace at h1
        rw [decode_ascii _ hne (by rw [hb0]; exact halt), hb0] at h1
        exact h1
      have h0 : trimSpaceStart (a :: u) (a :: u).length 0 = .inr 0 := by
        rw [hl]; unfold trimSpaceStart
        simp [hb0, ha, hz]
      rw [h0]
      simp only []
      by_cases hc : byteAt (a :: u) ((a :: u).length - 1) ≥ RuneSelf
      · have hs : trimSpaceStop (a :: u) 0 (a :: u).length (a :: u).length =
            .inl (TrimRightFunc (a :: u) IsSpace) := by
          have : trimSpaceStop (a :: u) 0 (a :: u).length (a :: u).length =
              .inl (TrimRightFunc (((a :: u).take (a :: u).length).drop 0) IsSpace) := by
            generalize hn : (a :: u).length = n at hc ⊢
            cases n with
            | zero => simp at hn
            | succ n =>
              simp only [Nat.add_sub_cancel] at hc
              unfold trimSpaceStop; simp [hc]
          rw [this, List.take_length, List.drop_zero]
        rw [hs]
        exact TrimRightFunc_fixed _ h2
      · have hclt : byteAt (a :: u) ((a :: u).length - 1) < 0x80 := by
          simp only [RuneSelf] at hc; omega
        have hz2 : asciiSpace (byteAt (a :: u) ((a :: u).length - 1)) = 0 := by
          apply asciiSpace_of_not_isSpace
          unfold trailingSpace at h2
          rw [decodeLast_ascii _ hne hclt] at h2
          exact h2
        have hs : trimSpaceStop (a :: u) 0 (a :: u).length (a :: u).length =
            .inr (a :: u).length := by
          generalize hn : (a :: u).length = n at hc hz2 ⊢
          cases n with
          | zero => simp at hn
          | succ n =>
            simp only [Nat.add_sub_cancel] at hc hz2
            unfold trimSpaceStop; simp [hc, hz2]
        rw [hs]
        simp only [List.take_length, List.drop_zero]

/-- A non-empty run of white space begins with a white-space rune, and what
follows that rune is a run of white space again. -/
theorem SpaceRun.step {t : Str} (h : SpaceRun t) (hne : t ≠ []) :
    IsSpace (DecodeRuneInString t).1 = true ∧ SpaceRun (t.drop (DecodeRuneInString t).2) := by
  cases h with
  | nil => exact absurd rfl hne
  | cons e rest he hs hw hr =>
    rw [decode_append e rest he (decode_ne_of_isSpace e hs), hw]
    refine ⟨hs, ?_⟩
    simpa using hr

theorem indexFuncLoop_of_run (t : Str) (fuel i : Nat) (h : SpaceRun (t.drop i)) :
    indexFuncLoop t IsSpace false fuel i = none := by
  induction fuel generalizing i with
  | zero => rfl
  | succ n ih =>
    unfold indexFuncLoop
    by_cases hlt : i < t.length
    · simp only [hlt, if_true]
      obtain ⟨h1, h2⟩ := h.step (drop_ne_nil t i hlt)
      rw [List.drop_drop] at h2
      simp only [h1, Bool.true_eq_false, if_false]
      exact ih _ h2
    · simp [hlt]

theorem onlySpace_of_run (t : Str) (h : SpaceRun t) : onlySpace t = true := by
  unfold onlySpace indexFunc
  rw [indexFuncLoop_of_run t _ 0 (by simpa using h)]
  rfl

/-- The contract of `strings.TrimSpace`: `s` is white space, then the result,
then white space; the result neither begins nor ends with white space. -/
theorem TrimSpace_spec (s : Str) :
    ∃ pre suf, s = pre ++ TrimSpace s ++ suf ∧ onlySpace pre = true ∧ onlySpace suf = true ∧
      leadingSpace (TrimSpace s) = false ∧ trailingSpace (TrimSpace s) = false := by
  obtain ⟨pre, suf, h1, h2, h3, h4, h5⟩ := TrimSpace_run s
  exact ⟨pre, suf, h1, onlySpace_of_run pre h2, onlySpace_of_run suf h3, h4, h5⟩

theorem TrimSpace_idem (s : Str) : TrimSpace (TrimSpace s) = TrimSpace s := by
  obtain ⟨_, _, _, _, _, h4, h5⟩ := TrimSpace_run s
  exact TrimSpace_fixed _ h4 h5


/-! ## `Split`, `Join` and `Set` -/

theorem Count_cons (b : Nat) (rest : Str) (c : Nat) :
    Count (b :: rest) c = (if b = c then 1 else 0) + Count rest c := rfl

theorem IndexByte_cons (b : Nat) (rest : Str) (c : Nat) :
    IndexByte (b :: rest) c = if b = c then some 0 else (IndexByte rest c).map (· + 1) := rfl

theorem genSplitLoop_succ (sep k : Nat) (s : Str) (a : List Str) :
    genSplitLoop sep (k + 1) s a =
      match IndexByte s sep with
      | none => a ++ [s]
      | some m => genSplitLoop sep k (s.drop (m + 1)) (a ++ [s.take m]) := rfl

theorem Count_le_length (s : Str) (c : Nat) : Count s c ≤ s.length := by
  induction s with
  | nil => simp [Count]
  | cons b rest ih =>
    rw [Count_cons, List.length_cons]
    split_ifs <;> omega

theorem Count_append (a b : Str) (c : Nat) : Count (a ++ b) c = Count a c + Count b c := by
  induction a with
  | nil => simp [Count]
  | cons x rest ih =>
    rw [List.cons_append, Count_cons, Count_cons, ih]
    omega

theorem Count_eq_zero (p : Str) (c : Nat) (h : c ∉ p) : Count p c = 0 := by
  induction p with
  | nil => rfl
  | cons x rest ih =>
    simp only [List.mem_cons, not_or] at h
    rw [Count_cons, ih h.2, if_neg (fun e => h.1 e.symm)]

theorem IndexByte_none (p : Str) (c : Nat) (h : c ∉ p) : IndexByte p c = none := by
  induction p with
  | nil => rfl
  | cons x rest ih =>
    simp only [List.mem_cons, not_or] at h
    rw [IndexByte_cons, ih h.2, if_neg (fun e => h.1 e.symm)]
    rfl

theorem IndexByte_append (p rest : Str) (c : Nat) (h : c ∉ p) :
    IndexByte (p ++ c :: rest) c = some p.length := by
  induction p with
  | nil => simp [IndexByte_cons]
  | cons x t ih =>
    simp only [List.mem_cons, not_or] at h
    rw [List.cons_append, IndexByte_cons, ih h.2, if_neg (fun e => h.1 e.symm)]
    rfl

/-- Every string is free of `c`, or has a first `c` in it. -/
theorem first_sep (s : Str) (c : Nat) :
    c ∉ s ∨ ∃ p rest, s = p ++ c :: rest ∧ c ∉ p := by
  induction s with
  | nil => left; simp
  | cons x t ih =>
    by_cases hx : x = c
    · right; exact ⟨[], t, by simp [hx], by simp⟩
    · rcases ih with h | ⟨p, rest, h1, h2⟩
      · left
        simp only [List.mem_cons, not_or]
        exact ⟨fun e => hx e.symm, h⟩
      · right
        refine ⟨x :: p, rest, by simp [h1], ?_⟩
        simp only [List.mem_cons, not_or]
        exact ⟨fun e => hx e.symm, h2⟩

theorem genSplitLoop_acc (sep k : Nat) (s : Str) (a : List Str) :
    genSplitLoop sep k s a = a ++ genSplitLoop sep k s [] := by
  induction k generalizing s a with
  | zero => simp [genSplitLoop]
  | succ n ih =>
    rw [genSplitLoop_succ, genSplitLoop_succ]
    cases IndexByte s sep with
    | none => simp
    | some m =>
      simp only []
      rw [ih, ih (s.drop (m + 1)) ([] ++ [s.take m])]
      simp

/-- The bound `n` in `genSplit` is never clipped: a string has no more
separators than bytes. -/
theorem Split_eq (s : Str) (sep : Nat) : Split s sep = genSplitLoop sep (Count s sep) s [] := by
  unfold Split
  have := Count_le_length s sep
  simp only []
  rw [if_neg (by omega)]
  rfl

theorem Split_of_not_mem (p : Str) (sep : Nat) (h : sep ∉ p) : Split p sep = [p] := by
  rw [Split_eq, Count_eq_zero p sep h]
  rfl

theorem Split_append (p rest : Str) (sep : Nat) (h : sep ∉ p) :
    Split (p ++ sep :: rest) sep = p :: Split rest sep := by
  rw [Split_eq, Split_eq, Count_append, Count_eq_zero p sep h]
  have hc : Count (sep :: rest) sep = Count rest sep + 1 := by
    rw [Count_cons, if_pos rfl]; omega
  rw [hc, Nat.zero_add, genSplitLoop_succ, IndexByte_append p rest sep h]
  simp only []
  rw [genSplitLoop_acc]
  simp

/-- Induction along the separators of a string. -/
theorem sep_induction (sep : Nat) (P : Str → Prop)
    (base : ∀ p, sep ∉ p → P p)
    (step : ∀ p rest, sep ∉ p → P rest → P (p ++ sep :: rest)) (s : Str) : P s := by
  have key : ∀ n, ∀ t : Str, t.length = n → P t := by
    intro n
    induction n using Nat.strong_induction_on with
    | _ n ih =>
      intro t hn
      rcases first_sep t sep with h | ⟨p, rest, h1, h2⟩
      · exact base t h
      · subst h1
        apply step p rest h2
        apply ih rest.length _ rest rfl
        rw [← hn]; simp; omega
  exact key s.length s rfl

theorem Split_length (s : Str) (sep : Nat) : (Split s sep).length = Count s sep + 1 := by
  induction s using sep_induction sep with
  | base p h => rw [Split_of_not_mem p sep h, Count_eq_zero p sep h]; rfl
  | step p rest h ih =>
    rw [Split_append p rest sep h, List.length_cons, ih, Count_append, Count_eq_zero p sep h,
      Count_cons, if_pos rfl]
    omega

theorem Split_ne_nil (s : Str) (sep : Nat) : Split s sep ≠ [] := by
  intro hc
  have := Split_length s sep
  rw [hc] at this
  simp at this

theorem Split_sep_free (s : Str) (sep : Nat) : ∀ p ∈ Split s sep, sep ∉ p := by
  induction s using sep_induction sep with
  | base p h =>
    rw [Split_of_not_mem p sep h]
    intro q hq
    simp only [List.mem_singleton] at hq
    rw [hq]; exact h
  | step p rest h ih =>
    rw [Split_append p rest sep h]
    intro q hq
    rcases List.mem_cons.mp hq with hq | hq
    · rw [hq]; exact h
    · exact ih q hq

theorem joinLoop_eq (sep : Str) (rest : List Str) (b : Str) :
    joinLoop sep rest b = b ++ (rest.map (fun e => sep ++ e)).flatten := by
  induction rest generalizing b with
  | nil => simp [joinLoop]
  | cons e t ih =>
    unfold joinLoop
    rw [ih]
    simp

theorem Join_cons_cons (e e' : Str) (rest : List Str) (sep : Str) :
    Join (e :: e' :: rest) sep = e ++ sep ++ Join (e' :: rest) sep := by
  cases rest with
  | nil => simp [Join, joinLoop]
  | cons e'' t =>
    simp only [Join]
    rw [joinLoop_eq, joinLoop_eq]
    simp

theorem Join_eq_intercalate (elems : List Str) (sep : Str) :
    Join elems sep = List.intercalate sep elems := by
  induction elems with
  | nil => rfl
  | cons e t ih =>
    cases t with
    | nil => simp [Join, List.intercalate]
    | cons e' t' =>
      rw [Join_cons_cons, ih]
      simp [List.intercalate]

theorem Join_Split (s : Str) (sep : Nat) : Join (Split s sep) [sep] = s := by
  induction s using sep_induction sep with
  | base p h => rw [Split_of_not_mem p sep h]; rfl
  | step p rest h ih =>
    rw [Split_append p rest sep h]
    obtain ⟨q, qs, hq⟩ := List.exists_cons_of_ne_nil (Split_ne_nil rest sep)
    rw [hq] at ih ⊢
    rw [Join_cons_cons, ih]
    simp

theorem Split_Join (ps : List Str) (sep : Nat) (hne : ps ≠ []) (h : ∀ p ∈ ps, sep ∉ p) :
    Split (Join ps [sep]) sep = ps := by
  induction ps with
  | nil => exact absurd rfl hne
  | cons e t ih =>
    have he : sep ∉ e := h e (List.mem_cons_self _ _)
    cases t with
    | nil => exact Split_of_not_mem e sep he
    | cons e' t' =>
      rw [Join_cons_cons]
      have : e ++ [sep] ++ Join (e' :: t') [sep] = e ++ sep :: Join (e' :: t') [sep] := by simp
      rw [this, Split_append e _ sep he, ih (by simp) (fun p hp => h p (List.mem_cons_of_mem _ hp))]

theorem setLoop_eq (tokens : List Str) (v : Value) :
    Value.setLoop tokens v = v ++ tokens.map TrimSpace := by
  induction tokens generalizing v with
  | nil => simp [Value.setLoop]
  | cons t rest ih =>
    unfold Value.setLoop
    rw [ih]
    simp

theorem Set_eq (v : Value) (args : Str) :
    Value.Set v args = (v ++ (Split args comma).map TrimSpace, none) := by
  simp only [Value.Set, setLoop_eq]

theorem setAll_eq (v : Value) (args : List Str) :
    Value.setAll v args = v ++ (args.map (fun s => (Split s comma).map TrimSpace)).flatten := by
  unfold Value.setAll
  induction args generalizing v with
  | nil => simp
  | cons s rest ih =>
    rw [List.foldl_cons, ih, Set_eq]
    simp


theorem TrimSpace_sep_free (p : Str) (c : Nat) (h : c ∉ p) : c ∉ TrimSpace p := by
  obtain ⟨pre, suf, h1, _⟩ := TrimSpace_run p
  intro hc
  apply h
  rw [h1]
  simp [hc]

theorem tokens_fixed (s : Str) :
    ∀ e ∈ (Split s comma).map TrimSpace,
      comma ∉ e ∧ leadingSpace e = false ∧ trailingSpace e = false := by
  intro e he
  obtain ⟨p, hp, rfl⟩ := List.mem_map.mp he
  obtain ⟨_, _, _, _, _, h4, h5⟩ := TrimSpace_run p
  exact ⟨TrimSpace_sep_free p comma (Split_sep_free s comma p hp), h4, h5⟩

theorem setAll_fixed (args : List Str) :
    ∀ e ∈ Value.setAll [] args,
      (∃ s ∈ args, ∃ p ∈ Split s comma, e = TrimSpace p) ∧
      comma ∉ e ∧ leadingSpace e = false ∧ trailingSpace e = false := by
  intro e he
  rw [setAll_eq, List.nil_append] at he
  obtain ⟨l, hl, hel⟩ := List.mem_flatten.mp he
  obtain ⟨s, hs, rfl⟩ := List.mem_map.mp hl
  refine ⟨?_, tokens_fixed s e hel⟩
  obtain ⟨p, hp, rfl⟩ := List.mem_map.mp hel
  exact ⟨s, hs, p, hp, rfl⟩

theorem map_TrimSpace_fixed (v : List Str)
    (h : ∀ e ∈ v, leadingSpace e = false ∧ trailingSpace e = false) : v.map TrimSpace = v := by
  induction v with
  | nil => rfl
  | cons e t ih =>
    rw [List.map_cons, ih (fun x hx => h x (List.mem_cons_of_mem _ hx)),
      TrimSpace_fixed e (h e (List.mem_cons_self _ _)).1 (h e (List.mem_cons_self _ _)).2]

theorem setAll_ne_nil (s : Str) (ss : List Str) : Value.setAll [] (s :: ss) ≠ [] := by
  rw [setAll_eq]
  obtain ⟨q, qs, hq⟩ := List.exists_cons_of_ne_nil (Split_ne_nil s comma)
  simp [hq]

/-! ## Counting separators -/

theorem Count_eq_count (s : Str) (c : Nat) : Count s c = s.count c := by
  induction s with
  | nil => rfl
  | cons b rest ih =>
    rw [Count_cons, ih, List.count_cons]
    by_cases h : b = c
    · simp [h]; omega
    · simp [h]

theorem Count_pos_of_mem (s : Str) (c : Nat) (h : c ∈ s) : 1 ≤ Count s c := by
  rw [Count_eq_count]
  exact List.count_pos_iff.mpr h

/-- Joining adds one separator between neighbours to those inside the elements. -/
theorem Count_Join (e : Str) (rest : List Str) (c : Nat) :
    Count (Join (e :: rest) [c]) c = ((e :: rest).map (fun x => Count x c)).sum + rest.length := by
  induction rest generalizing e with
  | nil => simp [Join]
  | cons e' t ih =>
    rw [Join_cons_cons, Count_append, Count_append, ih e']
    have h1 : Count [c] c = 1 := by simp [Count]
    rw [h1]
    simp only [List.map_cons, List.sum_cons, List.length_cons]
    omega

theorem sum_Count_pos (v : List Str) (c : Nat) (h : ∃ e ∈ v, c ∈ e) :
    1 ≤ (v.map (fun x => Count x c)).sum := by
  obtain ⟨e, he, hc⟩ := h
  induction v with
  | nil => simp at he
  | cons a t ih =>
    simp only [List.map_cons, List.sum_cons]
    rcases List.mem_cons.mp he with h | h
    · have := Count_pos_of_mem e c hc
      rw [h] at this
      omega
    · have := ih h
      omega

/-- Splitting at a separator splits the list of pieces. -/
theorem Split_append_sep (a b : Str) (sep : Nat) :
    Split (a ++ sep :: b) sep = Split a sep ++ Split b sep := by
  induction a using sep_induction sep with
  | base p h => rw [Split_append p b sep h, Split_of_not_mem p sep h]; rfl
  | step p rest h ih =>
    rw [List.append_assoc, List.cons_append, Split_append p _ sep h, ih,
      Split_append p rest sep h]
    rfl

/-! ## White space only -/

theorem SpaceRun.cancel {a b : Str} (ha : SpaceRun a) (hab : SpaceRun (a ++ b)) : SpaceRun b := by
  induction ha with
  | nil => simpa using hab
  | cons e rest he hs hw _ ih =>
    apply ih
    rw [List.append_assoc] at hab
    have hne : e ++ (rest ++ b) ≠ [] := by simp [he]
    have hstep := (hab.step hne).2
    rw [decode_append e _ he (decode_ne_of_isSpace e hs), hw] at hstep
    simpa using hstep

theorem run_of_onlySpace (t : Str) (h : onlySpace t = true) : SpaceRun t := by
  unfold onlySpace indexFunc at h
  rcases indexFuncLoop_spec t t.length 0 (Nat.zero_le _) (by omega)
    (by simpa using SpaceRun.nil) with ⟨_, hr⟩ | ⟨k, hk, _⟩
  · exact hr
  · rw [hk] at h
    simp at h

theorem TrimLeftFunc_of_run (t : Str) (h : SpaceRun t) : TrimLeftFunc t IsSpace = [] := by
  unfold TrimLeftFunc indexFunc
  rw [indexFuncLoop_of_run t _ 0 (by simpa using h)]

/-- A string of white space only is trimmed to the empty string. -/
theorem TrimSpace_of_run (p : Str) (h : SpaceRun p) : TrimSpace p = [] := by
  unfold TrimSpace
  rcases trimSpaceStart_spec p p.length 0 (Nat.zero_le _) (by omega)
    (by simpa using SpaceRun.nil) with ⟨k, _, hpre, _, he⟩ | ⟨k, _, hpre, hor, he⟩
  · rw [he]
    have hrun : SpaceRun (p.drop k) := by
      apply SpaceRun.cancel hpre
      rw [List.take_append_drop]; exact h
    show TrimFunc (p.drop k) IsSpace = []
    unfold TrimFunc
    rw [TrimLeftFunc_of_run _ hrun]
    rfl
  · rw [he]
    simp only []
    rcases hor with hlen | ⟨hklt, hb, hz⟩
    · subst hlen
      have hstop : trimSpaceStop p p.length p.length p.length = .inr p.length := by
        cases hl : p.length with
        | zero => rfl
        | succ n => unfold trimSpaceStop; simp
      rw [hstop]
      simp
    · exfalso
      have hrun : SpaceRun (p.drop k) := by
        apply SpaceRun.cancel hpre
        rw [List.take_append_drop]; exact h
      have hne := drop_ne_nil p k hklt
      have hsp := (hrun.step hne).1
      have hb0 : byteAt (p.drop k) 0 = byteAt p k := by rw [byteAt_drop]; rfl
      rw [decode_ascii _ hne (by rw [hb0]; exact hb), hb0, isSpace_of_ascii _ hb hz] at hsp
      exact absurd hsp (by decide)

theorem TrimSpace_of_onlySpace (p : Str) (h : onlySpace p = true) : TrimSpace p = [] :=
  TrimSpace_of_run p (run_of_onlySpace p h)

/-! ## The claims -/

/-- Claim C1: for every accumulator state `v` and every string `s`, `Value.Set(s)`
leaves the accumulator equal to `v` followed by the tokens of `s`. The tokens
are the pieces `strings.Split(s, ",")` with `strings.TrimSpace` applied to each,
one token per piece and in the order of the pieces: the pieces joined by `,`
give `s` back and none contains a comma, and the element at index
`len(v) + i` is the `i`-th piece with its leading and trailing white space
stripped. -/
theorem C1_set_appends_tokens (v : Value) (s : Str) :
    (Value.Set v s).1 = v ++ (Split s comma).map TrimSpace ∧
    (Value.Set v s).1.length = v.length + (Split s comma).length ∧
    Join (Split s comma) [comma] = s ∧
    ∀ i : Fin (Split s comma).length,
      comma ∉ (Split s comma).get i ∧
      (Value.Set v s).1[v.length + i.val]? = some (TrimSpace ((Split s comma).get i)) ∧
      Stripped ((Split s comma).get i) (TrimSpace ((Split s comma).get i)) := by
  refine ⟨by rw [Set_eq], by rw [Set_eq]; simp, Join_Split s comma, ?_⟩
  intro i
  refine ⟨Split_sep_free s comma _ (List.get_mem _ _ _), ?_, TrimSpace_spec _⟩
  rw [Set_eq]
  show (v ++ (Split s comma).map TrimSpace)[v.length + i.val]? = _
  rw [List.getElem?_append_right (by omega), Nat.add_sub_cancel_left, List.getElem?_map,
    List.getElem?_eq_getElem i.isLt]
  rfl

/-- Claim C2: for every accumulator state `v` and every string `s` that contains
no comma, `Value.Set(s)` appends exactly one element, and that element is `s`
with its leading and trailing white space stripped. -/
theorem C2_set_without_comma (v : Value) (s : Str) (h : comma ∉ s) :
    (Value.Set v s).1 = v ++ [TrimSpace s] ∧
    (Value.Set v s).1.length = v.length + 1 ∧
    Stripped s (TrimSpace s) := by
  have he : (Value.Set v s).1 = v ++ [TrimSpace s] := by
    rw [Set_eq, Split_of_not_mem s comma h]
    rfl
  refine ⟨he, ?_, TrimSpace_spec s⟩
  rw [he]
  simp

/-- Claim C2 at the comma-free input `" a b "`, appended to the state `["z"]`. -/
theorem C2_set_without_comma_witness :
    comma ∉ ascii " a b " ∧
    ((Value.Set [ascii "z"] (ascii " a b ")).1 = [ascii "z"] ++ [TrimSpace (ascii " a b ")] ∧
     (Value.Set [ascii "z"] (ascii " a b ")).1.length = [ascii "z"].length + 1 ∧
     Stripped (ascii " a b ") (TrimSpace (ascii " a b "))) :=
  ⟨by decide, C2_set_without_comma [ascii "z"] (ascii " a b ") (by decide)⟩

/-- Claim C3: `Value.Set` and `Slice.Set` never fail: for every accumulator state
and every input string the returned error is `nil`. -/
theorem C3_set_never_fails (v : Value) (r : Slice) (s : Str) :
    (Value.Set v s).2 = none ∧ (Slice.Set r s).2 = none :=
  ⟨rfl, rfl⟩

/-- Claim C4: `Set` is strictly additive: the state after `Value.Set(s)` has the
old state `v` as its first `len(v)` elements, every element of `v` at its old
index, and the new elements, which are those that the call appends to an
empty accumulator, come after them. -/
theorem C4_set_additive (v : Value) (s : Str) :
    v.length ≤ (Value.Set v s).1.length ∧
    (Value.Set v s).1.take v.length = v ∧
    (∀ i : Fin v.length, (Value.Set v s).1[i.val]? = some (v.get i)) ∧
    (Value.Set v s).1.drop v.length = (Value.Set [] s).1 := by
  rw [Set_eq, Set_eq]
  refine ⟨by simp, by simp, ?_, by simp⟩
  intro i
  rw [List.getElem?_append_left i.isLt]
  simp

/-- Claim C5: for every starting state `v` and every list of raw strings, calling
`Value.Set` on each of them in order yields `v` followed by the concatenation,
in call order, of the token lists that each call produces on its own. -/
theorem C5_repeated_set_concatenates (v : Value) (args : List Str) :
    Value.setAll v args = v ++ (args.map (fun s => (Value.Set [] s).1)).flatten := by
  rw [setAll_eq]
  congr 2
  apply List.map_congr_left
  intro s _
  rw [Set_eq, List.nil_append]

/-- Claim C6: starting from an empty accumulator, the calls `Set("a,b")`,
`Set("c")`, `Set("c, d")` in that order leave the accumulator equal to
`["a", "b", "c", "c", "d"]`. -/
theorem C6_scenario_a_b_c_c_d :
    (Value.Set (Value.Set (Value.Set [] (ascii "a,b")).1 (ascii "c")).1 (ascii "c, d")).1 =
      [ascii "a", ascii "b", ascii "c", ascii "c", ascii "d"] := by
  decide

/-- Claim C7, evaluated on the code: after `Set("a,b")`, `Set("c")`, `Set("c, d")` on
an empty accumulator the state has five elements, with `"c"` twice, and so is
not the `[]string{"a", "b", "c", "d"}` of the package documentation. -/
theorem C7_package_doc_example_differs :
    (Value.Set (Value.Set (Value.Set [] (ascii "a,b")).1 (ascii "c")).1 (ascii "c, d")).1 ≠
      [ascii "a", ascii "b", ascii "c", ascii "d"] ∧
    (Value.Set (Value.Set (Value.Set [] (ascii "a,b")).1 (ascii "c")).1 (ascii "c, d")).1.length
      = 5 := by
  decide

/-- Claim C8: for every accumulator state `v`, `Value.String()` returns the
elements of `v` in their order joined by a single `,` and nothing else: the
empty string for an empty `v`, the element itself for a one-element `v`, and
otherwise the first element, a comma, and the rendering of the rest; for
`["a", "b", "c"]` it returns `"a,b,c"`. -/
theorem C8_string_joins_with_comma (v : Value) :
    Value.String v = List.intercalate [comma] v ∧
    Value.String [] = [] ∧
    (∀ e : Str, Value.String [e] = e) ∧
    (∀ (e e' : Str) (rest : Value),
      Value.String (e :: e' :: rest) = e ++ comma :: Value.String (e' :: rest)) ∧
    Value.String [ascii "a", ascii "b", ascii "c"] = ascii "a,b,c" := by
  refine ⟨Join_eq_intercalate v [comma], rfl, fun e => rfl, ?_, by decide⟩
  intro e e' rest
  unfold Value.String
  rw [Join_cons_cons]
  simp

/-- Claim C9: round trip. For every state `v` reached from the empty accumulator by
one or more `Value.Set` calls, with any input strings, `Set(v.String())` on a
fresh empty accumulator yields exactly `v`, and succeeds. -/
theorem C9_round_trip (s : Str) (ss : List Str) :
    Value.Set [] (Value.String (Value.setAll [] (s :: ss))) =
      (Value.setAll [] (s :: ss), none) := by
  have hfix := setAll_fixed (s :: ss)
  rw [Set_eq, List.nil_append]
  unfold Value.String
  rw [Split_Join _ comma (setAll_ne_nil s ss) (fun p hp => (hfix p hp).2.1)]
  rw [map_TrimSpace_fixed _ (fun e he => (hfix e he).2.2)]

/-- Claim C10: every element of a state reached from the empty accumulator by any
sequence of `Value.Set` calls contains no comma and neither begins nor ends
with white space; it is a comma-delimited piece of one of the inputs, trimmed. -/
theorem C10_elements_are_tokens (args : List Str) (e : Str)
    (h : e ∈ Value.setAll [] args) :
    comma ∉ e ∧ leadingSpace e = false ∧ trailingSpace e = false ∧
    ∃ s ∈ args, ∃ p ∈ Split s comma, e = TrimSpace p := by
  obtain ⟨h1, h2, h3, h4⟩ := setAll_fixed args e h
  exact ⟨h2, h3, h4, h1⟩

/-- Claim C10 at the element `"b"` of the state reached by `Set(" a , b ")`, `Set("c")`. -/
theorem C10_elements_are_tokens_witness :
    ascii "b" ∈ Value.setAll [] [ascii " a , b ", ascii "c"] ∧
    (comma ∉ ascii "b" ∧ leadingSpace (ascii "b") = false ∧
     trailingSpace (ascii "b") = false ∧
     ∃ s ∈ [ascii " a , b ", ascii "c"], ∃ p ∈ Split s comma, ascii "b" = TrimSpace p) :=
  ⟨by decide, C10_elements_are_tokens _ _ (by decide)⟩

/-- Claim C11: rendering is lossy for elements that contain a comma. For every
sequence `v` in which some element contains a comma, `Set(String(v))` on a
fresh empty accumulator yields a sequence with more elements than `v`, and so
one that is different from `v`. -/
theorem C11_render_lossy_with_comma (v : Value) (h : ∃ e ∈ v, comma ∈ e) :
    v.length < (Value.Set [] (Value.String v)).1.length ∧
    (Value.Set [] (Value.String v)).1 ≠ v := by
  have hlt : v.length < (Value.Set [] (Value.String v)).1.length := by
    rw [Set_eq, List.nil_append, List.length_map, Split_length]
    have hs := sum_Count_pos v comma h
    cases v with
    | nil =>
      obtain ⟨e, he, _⟩ := h
      simp at he
    | cons e rest =>
      unfold Value.String
      rw [Count_Join]
      simp only [List.length_cons]
      omega
  refine ⟨hlt, ?_⟩
  intro hc
  rw [hc] at hlt
  exact Nat.lt_irrefl _ hlt

/-- Claim C11 at the pre-populated sequence `["a,b"]`, which is re-split into two elements. -/
theorem C11_render_lossy_with_comma_witness :
    (∃ e ∈ [ascii "a,b"], comma ∈ e) ∧
    ([ascii "a,b"].length < (Value.Set [] (Value.String [ascii "a,b"])).1.length ∧
     (Value.Set [] (Value.String [ascii "a,b"])).1 ≠ [ascii "a,b"]) :=
  ⟨⟨ascii "a,b", by decide, by decide⟩,
   C11_render_lossy_with_comma [ascii "a,b"] ⟨ascii "a,b", by decide, by decide⟩⟩

/-- Claim C12: `Slice.Set` writes through to the referenced sequence and behaves
exactly like `Value.Set` on it: after `SliceRef(&s).Set(args)` the referenced
sequence is the state that `Value.Set(args)` produces from `s`, with the same
error; with `s` empty, `Set("x")` leaves the referenced sequence equal to
`["x"]`. -/
theorem C12_slice_set_refines_value_set (s : List Str) (args : Str) :
    (Slice.Set (SliceRef s) args).1.slice = (Value.Set s args).1 ∧
    (Slice.Set (SliceRef s) args).2 = (Value.Set s args).2 ∧
    (Slice.Set (SliceRef []) (ascii "x")).1.slice = [ascii "x"] :=
  ⟨rfl, rfl, by decide⟩

/-- Claim C13: empty tokens are preserved as empty strings. For every input string
and every piece of it between commas that is empty or consists of white space
only, `Set` appends the empty string at that piece's position;
`Set("a,,b")` on an empty accumulator yields `["a", "", "b"]`, and `Set(",a, ")`
yields `["", "a", ""]`. -/
theorem C13_empty_tokens_preserved (v : Value) (s : Str) (i : Fin (Split s comma).length)
    (h : onlySpace ((Split s comma).get i) = true) :
    (Value.Set v s).1[v.length + i.val]? = some [] ∧
    (Value.Set v s).1.length = v.length + (Split s comma).length ∧
    (Value.Set [] (ascii "a,,b")).1 = [ascii "a", [], ascii "b"] ∧
    (Value.Set [] (ascii ",a, ")).1 = [[], ascii "a", []] := by
  refine ⟨?_, by rw [Set_eq]; simp, by decide, by decide⟩
  rw [Set_eq]
  show (v ++ (Split s comma).map TrimSpace)[v.length + i.val]? = _
  rw [List.getElem?_append_right (by omega), Nat.add_sub_cancel_left, List.getElem?_map,
    List.getElem?_eq_getElem i.isLt]
  show some (TrimSpace ((Split s comma).get i)) = some []
  rw [TrimSpace_of_onlySpace _ h]

/-- Claim C13 at the input `" a, ,"`, whose second piece is a single space. -/
theorem C13_empty_tokens_preserved_witness :
    onlySpace ((Split (ascii " a, ,") comma).get ⟨1, by decide⟩) = true ∧
    ((Value.Set [ascii "z"] (ascii " a, ,")).1[[ascii "z"].length + 1]? = some [] ∧
     (Value.Set [ascii "z"] (ascii " a, ,")).1.length =
       [ascii "z"].length + (Split (ascii " a, ,") comma).length ∧
     (Value.Set [] (ascii "a,,b")).1 = [ascii "a", [], ascii "b"] ∧
     (Value.Set [] (ascii ",a, ")).1 = [[], ascii "a", []]) :=
  ⟨by decide, C13_empty_tokens_preserved [ascii "z"] (ascii " a, ,") ⟨1, by decide⟩ (by decide)⟩

/-- Claim C14: white-space trimming. `Set(" a , b ")` on an empty accumulator yields
`["a", "b"]`; in general the white space around each comma-separated piece is
removed before it is appended: the element appended for a piece is the piece
with its leading and trailing white space stripped. -/
theorem C14_whitespace_trimmed (v : Value) (s : Str) (i : Fin (Split s comma).length) :
    (Value.Set [] (ascii " a , b ")).1 = [ascii "a", ascii "b"] ∧
    ∃ t, (Value.Set v s).1[v.length + i.val]? = some t ∧
      Stripped ((Split s comma).get i) t := by
  refine ⟨by decide, TrimSpace ((Split s comma).get i), ?_, TrimSpace_spec _⟩
  rw [Set_eq]
  show (v ++ (Split s comma).map TrimSpace)[v.length + i.val]? = _
  rw [List.getElem?_append_right (by omega), Nat.add_sub_cancel_left, List.getElem?_map,
    List.getElem?_eq_getElem i.isLt]
  rfl

/-- Claim C15: the empty string is a legal input: for every accumulator state,
`Value.Set("")` succeeds and appends exactly one element, the empty string. -/
theorem C15_set_empty_string (v : Value) :
    Value.Set v [] = (v ++ [[]], none) ∧
    (Value.Set v []).1.length = v.length + 1 := by
  have h : Value.Set v [] = (v ++ [[]], none) := by
    rw [Set_eq]
    rfl
  refine ⟨h, ?_⟩
  rw [h]
  simp

/-- Claim C16: rendering is read-only. For every accumulator state `v` the call
`Value.String()` leaves the sequence unchanged, `Slice.String()` leaves the
referenced sequence unchanged, and a second call on the same state returns
the same string as the first. -/
theorem C16_string_read_only (v : Value) (r : Slice) :
    (Value.stringCall v).1 = v ∧
    (Slice.stringCall r).1 = r ∧
    (Value.stringCall (Value.stringCall v).1).2 = (Value.stringCall v).2 ∧
    (Slice.stringCall (Slice.stringCall r).1).2 = (Slice.stringCall r).2 ∧
    (Value.stringCall v).2 = Value.String v ∧
    (Slice.stringCall r).2 = Slice.String r :=
  ⟨rfl, rfl, rfl, rfl, rfl, rfl⟩

/-- Claim C17: for every accumulator state `v` and every string `s`, `Value.Set(s)`
increases the length of the accumulator by exactly the number of `,` bytes in
`s` plus one; so every call appends at least one element and the accumulator
is not empty after it. -/
theorem C17_set_length (v : Value) (s : Str) :
    (Value.Set v s).1.length = v.length + (s.count comma + 1) ∧
    Count s comma = s.count comma ∧
    v.length < (Value.Set v s).1.length ∧
    (Value.Set v s).1 ≠ [] := by
  have h : (Value.Set v s).1.length = v.length + (s.count comma + 1) := by
    rw [Set_eq, List.length_append, List.length_map, Split_length, Count_eq_count]
  refine ⟨h, Count_eq_count s comma, by omega, ?_⟩
  intro hc
  rw [hc, List.length_nil] at h
  omega

/-- Claim C18: repeating the flag is equivalent to comma-joining its values: for
every accumulator state `v` and all strings `a` and `b`, `Value.Set(a)` followed
by `Value.Set(b)` yields the same state, and the same error, as the single
call `Value.Set(a + "," + b)`. -/
theorem C18_repeat_is_comma_join (v : Value) (a b : Str) :
    Value.Set (Value.Set v a).1 b = Value.Set v (a ++ [comma] ++ b) := by
  rw [Set_eq, Set_eq, Set_eq]
  have : a ++ [comma] ++ b = a ++ comma :: b := by simp
  rw [this, Split_append_sep]
  simp

/-- Claim C19: the round trip does not hold for an accumulator on which `Set` was
never called: the empty accumulator renders as `""`, and `Set("")` on a fresh
accumulator yields the one-element sequence `[""]`, not the empty sequence. -/
theorem C19_no_round_trip_for_empty :
    Value.String [] = [] ∧
    (Value.Set [] []).1 = [[]] ∧
    (Value.Set [] (Value.String [])).1 ≠ [] := by
  decide

/-- Claim C20: for every referenced sequence `s`, `SliceRef(&s).String()` returns
the same string as `Value(s).String()`: both binding styles render alike. -/
theorem C20_slice_string_eq_value_string (s : List Str) :
    Slice.String (SliceRef s) = Value.String s ∧
    (Slice.stringCall (SliceRef s)).2 = (Value.stringCall s).2 :=
  ⟨rfl, rfl⟩

end Stringlist
